import Mathlib

/-!
# Verification of `realtime_audio_analyzer.py`

A shallow embedding of the core data structures and operations of the
real-time audio spectrum analyzer (`src/realtime_audio_analyzer.py`):
the bounded lossy transfer queue (`queue.Queue(maxsize=30)` with
`put_nowait`), the two sample sources (`AudioStream` for the microphone
and `LoopingWavStream` for looping WAV playback), the rolling history
(`collections.deque(maxlen=...)`), the controller start/stop logic, the
slider-clamp event handling, and the FFT / waveform analysis functions.

Samples are embedded as exact rationals (`ℚ`) where the code is plain
arithmetic, and as reals (`ℝ`) for the transcendental FFT pipeline.
-/

set_option autoImplicit false
set_option maxRecDepth 8192

namespace RTA

/-- `FS = 48000`, the configured microphone sample rate (module constant). -/
def FS : ℕ := 48000

/-- `BLOCKSIZE = 2048` (module constant). -/
def BLOCKSIZE : ℕ := 2048

/-- `HISTORY_SEC = 10` (module constant). -/
def HISTORY_SEC : ℕ := 10

/-- Capacity of the transfer queue: `queue.Queue(maxsize=30)` in
`RealTimeAudioApp.__init__`. -/
def QCAP : ℕ := 30

/-! ## TransferQueue

`queue.Queue.put_nowait` on a bounded queue raises `queue.Full` when
`0 < maxsize` and `qsize() >= maxsize`; both producers catch that
exception and drop the chunk (`except queue.Full: pass`).  The queue is
embedded as a `List` of chunks, oldest first. -/

/-- One `put_nowait` wrapped in `try ... except queue.Full: pass`:
append the chunk if the queue holds fewer than `cap` elements (or the
queue is unbounded, `cap = 0`), otherwise drop it, leaving the queue
unchanged. -/
def tryPush {α : Type} (cap : ℕ) (q : List α) (c : α) : List α :=
  if 0 < cap ∧ cap ≤ q.length then q else q ++ [c]

/-! ## RollingHistory

`self.history = deque(maxlen=HISTORY_SEC * self.fs)`; `_collect_audio`
drains the queue with `self.history.extend(chunk)`.  A CPython deque
with a `maxlen` appends elements one at a time, discarding from the
opposite (left / oldest) end once the length exceeds `maxlen`. -/

/-- One element appended to a `collections.deque` with `maxlen = cap`:
the new element goes on the right and the oldest elements are discarded
from the left so that at most `cap` elements remain. -/
def dequeAppend {α : Type} (cap : ℕ) (h : List α) (x : α) : List α :=
  (h ++ [x]).drop (h.length + 1 - cap)

/-- `deque.extend(samples)` appends the elements one at a time, left to
right. -/
def dequeExtend {α : Type} (cap : ℕ) (h : List α) (s : List α) : List α :=
  s.foldl (dequeAppend cap) h

/-- The suffix of the last `cap` elements of a list (all of it when the
list is shorter than `cap`). -/
def lastN {α : Type} (cap : ℕ) (l : List α) : List α :=
  l.drop (l.length - cap)

/-! ## AudioStream (microphone source) -/

/-- `np.mean(indata, axis=1)`: `indata` is a frames × channels matrix
(one inner list per frame); the mean over axis 1 averages each frame's
channels, producing one mono sample per frame. -/
def npMeanAxis1 (indata : List (List ℚ)) : List ℚ :=
  indata.map (fun row => row.sum / (row.length : ℚ))

/-- The handle returned by `sd.InputStream(...)` together with the
parameters it was opened with (`AudioStream.start` opens it and
immediately calls `.start()` on it). -/
structure StreamHandle where
  samplerate : ℚ
  blocksize : ℕ
  device : ℤ
  channels : ℕ
deriving DecidableEq

/-- The `AudioStream` object: queue reference, sample rate, device
index, and the optional open stream (`self.stream = None` initially). -/
structure AudioStream where
  q : List (List ℚ)
  fs : ℚ
  device_idx : ℤ
  stream : Option StreamHandle
deriving DecidableEq

/-- `AudioStream.audio_callback`: downmix `indata` to mono with
`np.mean(indata, axis=1)` and `put_nowait` it, dropping on `queue.Full`.
(The `status` flag is only printed; it does not alter state.) -/
def AudioStream.audio_callback (s : AudioStream) (indata : List (List ℚ)) :
    AudioStream :=
  { s with q := tryPush QCAP s.q (npMeanAxis1 indata) }

/-- `AudioStream.start`: `if self.stream is None:` open an input stream
with the configured rate, `BLOCKSIZE`, device index and 1 channel, and
start it; otherwise do nothing. -/
def AudioStream.start (s : AudioStream) : AudioStream :=
  match s.stream with
  | some _ => s
  | none => { s with stream := some ⟨s.fs, BLOCKSIZE, s.device_idx, 1⟩ }

/-- `AudioStream.stop`: `if self.stream:` stop and close it and set
`self.stream = None`; otherwise do nothing. -/
def AudioStream.stop (s : AudioStream) : AudioStream :=
  match s.stream with
  | none => s
  | some _ => { s with stream := none }

/-! ## LoopingWavStream (looping WAV-file source) -/

/-- The array returned by `wavfile.read`: one-dimensional for a mono
file, two-dimensional (frames × channels) otherwise. -/
inductive WavData
  | mono (samples : List ℚ)
  | multi (rows : List (List ℚ))

/-- `if data.ndim > 1: data = data[:,0]` — a multi-channel file keeps
only its first channel; a mono file is used as is. -/
def WavData.toMono : WavData → List ℚ
  | .mono samples => samples
  | .multi rows => rows.map (fun r => r.getD 0 0)

/-- `np.max(np.abs(v))` over a buffer (the code only reaches it on a
nonempty buffer; on an empty one `np.max` raises and the surrounding
`except` catches it). -/
def maxAbs (l : List ℚ) : ℚ :=
  l.foldr (fun x m => max |x| m) 0

/-- The `LoopingWavStream` object. -/
structure LoopingWavStream where
  filepath : String
  q : List (List ℚ)
  running : Bool
  ptr : ℕ
  data : Option (List ℚ)
  fs : ℚ
deriving DecidableEq

/-- `LoopingWavStream.__init__`. -/
def LoopingWavStream.init (filepath : String) : LoopingWavStream :=
  { filepath := filepath
    q := []
    running := false
    ptr := 0
    data := none
    fs := (FS : ℚ) }

/-- `LoopingWavStream.start`, parameterized by the outcome of
`wavfile.read(self.filepath)` (`.error` when the read raises).  On a
successful read: keep channel 0, convert to float, divide by
`np.max(np.abs(data)) or 1.0`, and set `running = True`.  On any raised
exception an error popup is shown and no further field is assigned; in
particular an empty buffer makes `np.max` raise after `self.fs` and
`self.data` were already assigned, leaving `running = False`. -/
def LoopingWavStream.start (s : LoopingWavStream)
    (res : Except String (ℚ × WavData)) : LoopingWavStream :=
  match res with
  | .error _ => s
  | .ok (fs, raw) =>
      let d := raw.toMono
      if d = [] then { s with fs := fs, data := some d }
      else
        let mx := maxAbs d
        let mx := if mx = 0 then 1 else mx
        { s with fs := fs, data := some (d.map (· / mx)), running := true }

/-- `LoopingWavStream.stop`: `self.running = False`. -/
def LoopingWavStream.stop (s : LoopingWavStream) : LoopingWavStream :=
  { s with running := false }

/-- `LoopingWavStream.pump`: a no-op unless running with data loaded;
otherwise slice one block starting at `self.ptr`, wrapping with
`np.concatenate((data[ptr:], data[:end % len]))` when `end >= len`,
advance the pointer, and `put_nowait` the chunk, dropping on full. -/
def LoopingWavStream.pump (s : LoopingWavStream) : LoopingWavStream :=
  match s.running, s.data with
  | false, _ => s
  | true, none => s
  | true, some d =>
      let e := s.ptr + BLOCKSIZE
      if d.length ≤ e then
        let chunk := d.drop s.ptr ++ d.take (e % d.length)
        { s with ptr := e % d.length, q := tryPush QCAP s.q chunk }
      else
        let chunk := (d.drop s.ptr).take (e - s.ptr)
        { s with ptr := e, q := tryPush QCAP s.q chunk }

/-! ## Controller (`RealTimeAudioApp`) -/

/-- The value of `self.audio`: either a microphone stream or a WAV
stream. -/
inductive ActiveSource
  | mic (m : AudioStream)
  | wav (w : LoopingWavStream)

/-- The controller state of `RealTimeAudioApp` relevant to the core:
transfer queue, active source, current sample rate, rolling history
content, and the running flag. -/
structure RealTimeAudioApp where
  q : List (List ℚ)
  audio : Option ActiveSource
  fs : ℚ
  history : List ℚ
  running : Bool

/-- `RealTimeAudioApp.__init__`: empty queue, no source, `fs = FS`,
empty history, not running. -/
def appInit : RealTimeAudioApp :=
  { q := []
    audio := none
    fs := (FS : ℚ)
    history := []
    running := false }

/-- `RealTimeAudioApp._stop`: stop the active source if any, then
`self.running, self.audio = False, None`. -/
def appStop (a : RealTimeAudioApp) : RealTimeAudioApp :=
  { a with running := false, audio := none }

/-- `RealTimeAudioApp._start` on a `WAV:` source selection,
parameterized by the outcome of the file read inside
`LoopingWavStream.start`: `self._stop()`, construct and start the WAV
stream, take its sample rate, rebuild an empty history, and set
`self.running = True` (unconditionally — also when the load failed). -/
def appStartWav (a : RealTimeAudioApp) (filepath : String)
    (res : Except String (ℚ × WavData)) : RealTimeAudioApp :=
  let a1 := appStop a
  let src := (LoopingWavStream.init filepath).start res
  { a1 with
    audio := some (.wav src)
    fs := src.fs
    history := []
    running := true }

/-! ## Slider-clamp event handling (`RealTimeAudioApp.run`) -/

/-- The GUI events relevant to the frequency sliders. -/
inductive GuiEvent
  | fmin
  | fmax
  | other
deriving DecidableEq

/-- Lines 151–154 of `run`: after an `FMIN` edit with
`val["FMIN"] > val["FMAX"]`, the `FMIN` slider is reset to
`val["FMAX"]`; after an `FMAX` edit with `val["FMAX"] < val["FMIN"]`,
the `FMAX` slider is reset to `val["FMIN"]`.  Returns the
`(min, max)` slider values after the handler. -/
def clampSliders (ev : GuiEvent) (vmin vmax : ℚ) : ℚ × ℚ :=
  match ev with
  | .fmin => if vmax < vmin then (vmax, vmax) else (vmin, vmax)
  | .fmax => if vmax < vmin then (vmin, vmin) else (vmin, vmax)
  | .other => (vmin, vmax)

/-! ## Waveform mode (`RealTimeAudioApp._plot_wave`) -/

/-- `np.linspace(a, b, num)` with the default `endpoint=True`:
`num` evenly spaced values from `a` to `b`; for `num = 1` the single
value is `a`, and for `num = 0` the result is empty.  (In exact
arithmetic the closed form `a + i·(b−a)/(num−1)` realizes this,
the `num ≤ 1` cases falling out of division by zero being zero.) -/
def npLinspace (a b : ℚ) (num : ℕ) : List ℚ :=
  List.ofFn (fun i : Fin num => a + (i : ℚ) * ((b - a) / ((num : ℚ) - 1)))

/-- `_plot_wave`: skip when the history is empty; otherwise plot the
history against `np.linspace(-len(data)/self.fs, 0, len(data))`.
Returns the plotted (time, amplitude) pairs, or `none` when rendering
is skipped. -/
def plot_wave (history : List ℚ) (fs : ℚ) : Option (List (ℚ × ℚ)) :=
  if history = [] then none
  else
    let t := npLinspace (-(history.length : ℚ) / fs) 0 history.length
    some (t.zip history)

/-! ## FFT mode (`RealTimeAudioApp._plot_fft`)

The transcendental pipeline is embedded over exact reals. -/

/-- `np.hanning(M)`: empty for `M < 1`, `[1]` for `M = 1`, otherwise
the window `w(n) = 0.5 − 0.5·cos(2πn/(M−1))`, `n = 0, …, M−1`. -/
noncomputable def npHanning (M : ℕ) : List ℝ :=
  if M = 1 then [1]
  else List.ofFn (fun n : Fin M =>
    1 / 2 - 1 / 2 * Real.cos (2 * Real.pi * (n : ℝ) / ((M : ℝ) - 1)))

/-- Bin `k` of the discrete Fourier transform of `x`:
`X_k = Σ_n x_n · exp(−2πikn/N)` with `N = x.length`. -/
noncomputable def dftBin (x : List ℝ) (k : ℕ) : ℂ :=
  ∑ n ∈ Finset.range x.length,
    (x.getD n 0 : ℂ) *
      Complex.exp (-(2 * Real.pi * (k : ℝ) * (n : ℝ) / (x.length : ℝ)) * Complex.I)

/-- `np.fft.rfft(x)`: the one-sided DFT, bins `0, …, ⌊N/2⌋`. -/
noncomputable def npRfft (x : List ℝ) : List ℂ :=
  (List.range (x.length / 2 + 1)).map (dftBin x)

/-- `np.fft.rfftfreq(n, d)`: frequencies `k/(d·n)` for
`k = 0, …, ⌊n/2⌋`. -/
noncomputable def npRfftfreq (n : ℕ) (d : ℝ) : List ℝ :=
  (List.range (n / 2 + 1)).map (fun k : ℕ => (k : ℝ) / (d * (n : ℝ)))

/-- `_plot_fft`: skip when fewer than `BLOCKSIZE` samples are in the
history; otherwise Hann-window the last `BLOCKSIZE` samples, take the
one-sided DFT, convert to decibels with `20·log10(|X| + 1e-6)`, and
plot the (frequency, magnitude) pairs whose frequency passes the mask
`(xf >= fmin) & (xf <= max(fmax, fmin + 1))`.  Returns the plotted
pairs, or `none` when rendering is skipped. -/
noncomputable def plot_fft (history : List ℝ) (fs fmin fmax : ℝ) :
    Option (List (ℝ × ℝ)) :=
  if history.length < BLOCKSIZE then none
  else
    let data := history.drop (history.length - BLOCKSIZE)
    let yf := npRfft (List.zipWith (· * ·) data (npHanning data.length))
    let xf := npRfftfreq data.length (1 / fs)
    let mag := yf.map (fun z => 20 * Real.logb 10 (Complex.abs z + 1 / 1000000))
    let fmax' := max fmax (fmin + 1)
    some ((xf.zip mag).filter (fun p => decide (fmin ≤ p.1) && decide (p.1 ≤ fmax')))

/-- The FFT analysis result exactly as the specification sentence
describes it, written independently of the numpy primitives: when at
least `blockSize` samples are available, for each one-sided bin
`k = 0, …, blockSize/2` the frequency is `k·fs/blockSize` and the
magnitude is `20·log10(|Σ_n windowed_n · e^{−2πikn/N}| + 1e-6)` where
`windowed_n` is the `n`-th most-recent-block sample multiplied by the
Hann window `0.5 − 0.5·cos(2πn/(N−1))`; the returned pairs are those
whose frequency lies within `[fmin, fmax]`, with `fmax` replaced by
`fmin + 1` whenever `fmax ≤ fmin`. -/
noncomputable def fftSpecResult (history : List ℝ) (fs fmin fmax : ℝ) :
    Option (List (ℝ × ℝ)) :=
  if history.length < BLOCKSIZE then none
  else
    let recent := history.drop (history.length - BLOCKSIZE)
    let fmaxEff := if fmax ≤ fmin then fmin + 1 else fmax
    some ((List.range (BLOCKSIZE / 2 + 1)).filterMap (fun k : ℕ =>
      let f := (k : ℝ) * fs / (BLOCKSIZE : ℝ)
      if fmin ≤ f ∧ f ≤ fmaxEff then
        some (f, 20 * Real.logb 10 (Complex.abs
          (∑ n ∈ Finset.range BLOCKSIZE,
            ((recent.getD n 0 *
              (1 / 2 - 1 / 2 * Real.cos (2 * Real.pi * (n : ℝ) / ((BLOCKSIZE : ℝ) - 1)))
              : ℝ) : ℂ) *
              Complex.exp (-(2 * Real.pi * (k : ℝ) * (n : ℝ) / (BLOCKSIZE : ℝ)) * Complex.I))
          + 1 / 1000000))
      else none))

/-! ## Auxiliary lemmas -/

theorem tryPush_of_lt {α : Type} (cap : ℕ) (q : List α) (c : α)
    (h : q.length < cap) : tryPush cap q c = q ++ [c] := by
  unfold tryPush
  rw [if_neg]
  rintro ⟨-, hle⟩
  exact absurd h (not_lt.mpr hle)

theorem tryPush_of_full {α : Type} (cap : ℕ) (q : List α) (c : α)
    (hcap : 0 < cap) (h : cap ≤ q.length) : tryPush cap q c = q := by
  simp [tryPush, hcap, h]

theorem length_tryPush_le {α : Type} (cap : ℕ) (q : List α) (c : α)
    (hcap : 0 < cap) (h : q.length ≤ cap) : (tryPush cap q c).length ≤ cap := by
  rcases lt_or_eq_of_le h with h' | h'
  · rw [tryPush_of_lt cap q c h']
    simpa using h'
  · rw [tryPush_of_full cap q c hcap h'.ge]
    exact h

/-- Pushing a whole list of chunks in succession onto a queue that is
within capacity fills the queue with the oldest pushes, in order. -/
theorem foldl_tryPush {α : Type} (cap : ℕ) (hcap : 0 < cap) :
    ∀ (cs : List α) (q : List α), q.length ≤ cap →
      cs.foldl (tryPush cap) q = q ++ cs.take (cap - q.length)
  | [], q, _ => by simp
  | c :: cs, q, hq => by
    rcases lt_or_eq_of_le hq with h | h
    · rw [List.foldl_cons, tryPush_of_lt cap q c h,
        foldl_tryPush cap hcap cs (q ++ [c]) (by simpa using h)]
      have h1 : cap - q.length = (cap - (q.length + 1)) + 1 := by omega
      simp [h1, List.append_assoc]
    · rw [List.foldl_cons, tryPush_of_full cap q c hcap h.ge,
        foldl_tryPush cap hcap cs q hq, h]
      simp

theorem length_lastN {α : Type} (cap : ℕ) (l : List α) :
    (lastN cap l).length = min cap l.length := by
  simp only [lastN, List.length_drop]
  omega

theorem lastN_of_le {α : Type} (cap : ℕ) (l : List α) (h : l.length ≤ cap) :
    lastN cap l = l := by
  simp only [lastN, Nat.sub_eq_zero_of_le h, List.drop_zero]

theorem lastN_append_right {α : Type} (cap : ℕ) (pre rest : List α)
    (h : cap ≤ rest.length) : lastN cap (pre ++ rest) = lastN cap rest := by
  simp only [lastN, List.length_append]
  have h1 : pre.length + rest.length - cap = pre.length + (rest.length - cap) := by
    omega
  rw [h1, List.drop_append]

theorem dequeAppend_eq_lastN {α : Type} (cap : ℕ) (h : List α) (x : α) :
    dequeAppend cap h x = lastN cap (h ++ [x]) := by
  simp [dequeAppend, lastN]

theorem lastN_lastN_append {α : Type} (cap : ℕ) (l m : List α) :
    lastN cap (lastN cap l ++ m) = lastN cap (l ++ m) := by
  rcases le_or_lt l.length cap with hle | hlt
  · rw [lastN_of_le cap l hle]
  · have hsplit : l = l.take (l.length - cap) ++ lastN cap l :=
      (List.take_append_drop (l.length - cap) l).symm
    have hlen : cap ≤ (lastN cap l ++ m).length := by
      rw [List.length_append, length_lastN]
      omega
    calc lastN cap (lastN cap l ++ m)
        = lastN cap (l.take (l.length - cap) ++ (lastN cap l ++ m)) :=
          (lastN_append_right cap _ _ hlen).symm
      _ = lastN cap (l ++ m) := by rw [← List.append_assoc, ← hsplit]

/-- `deque.extend` keeps exactly the last `cap` samples of the
concatenation when the deque starts within capacity. -/
theorem dequeExtend_eq_lastN {α : Type} (cap : ℕ) :
    ∀ (s h : List α), h.length ≤ cap →
      dequeExtend cap h s = lastN cap (h ++ s)
  | [], h, hh => by
    simp only [dequeExtend, List.foldl_nil, List.append_nil]
    exact (lastN_of_le cap h hh).symm
  | x :: xs, h, hh => by
    have hlen : (dequeAppend cap h x).length ≤ cap := by
      simp only [dequeAppend, List.length_drop, List.length_append,
        List.length_singleton]
      omega
    calc dequeExtend cap h (x :: xs)
        = dequeExtend cap (dequeAppend cap h x) xs := by
          simp [dequeExtend]
      _ = lastN cap (dequeAppend cap h x ++ xs) :=
          dequeExtend_eq_lastN cap xs _ hlen
      _ = lastN cap (lastN cap (h ++ [x]) ++ xs) := by
          rw [dequeAppend_eq_lastN]
      _ = lastN cap ((h ++ [x]) ++ xs) := lastN_lastN_append cap _ _
      _ = lastN cap (h ++ x :: xs) := by
          rw [List.append_assoc, List.singleton_append]

theorem length_dequeExtend_le {α : Type} (cap : ℕ) (h s : List α)
    (hh : h.length ≤ cap) : (dequeExtend cap h s).length ≤ cap := by
  rw [dequeExtend_eq_lastN cap s h hh, length_lastN]
  omega

theorem maxAbs_nonneg (l : List ℚ) : 0 ≤ maxAbs l := by
  induction l with
  | nil => exact le_refl 0
  | cons x xs ih => exact le_trans ih (le_max_right _ _)

theorem abs_le_maxAbs (l : List ℚ) : ∀ x ∈ l, |x| ≤ maxAbs l := by
  induction l with
  | nil => intro x hx; cases hx
  | cons y xs ih =>
    intro x hx
    rcases List.mem_cons.mp hx with rfl | hx
    · exact le_max_left _ _
    · exact le_trans (ih x hx) (le_max_right _ _)

theorem length_npLinspace (a b : ℚ) (num : ℕ) :
    (npLinspace a b num).length = num := by
  simp [npLinspace]

theorem npLinspace_getD (a b : ℚ) (num i : ℕ) (hi : i < num) :
    (npLinspace a b num).getD i 0 =
      a + (i : ℚ) * ((b - a) / ((num : ℚ) - 1)) := by
  have hlen : i < (npLinspace a b num).length := by
    rw [length_npLinspace]; exact hi
  rw [List.getD_eq_getElem _ _ hlen]
  simp [npLinspace, List.getElem_ofFn]

theorem length_npHanning (M : ℕ) : (npHanning M).length = M := by
  by_cases hM : M = 1 <;> simp [npHanning, hM]

theorem filter_map_eq_filterMap {α β : Type} (q : β → Bool) (f : α → β)
    (l : List α) :
    (l.map f).filter q = l.filterMap (fun a => if q (f a) then some (f a) else none) := by
  induction l with
  | nil => rfl
  | cons a l ih =>
    simp only [List.map_cons, List.filter_cons, List.filterMap_cons]
    cases h : q (f a) <;> simp [h, ih]

theorem getD_windowed (D : List ℝ) (N n : ℕ) (hL : D.length = N) (hn : n < N)
    (h1 : N ≠ 1) :
    (List.zipWith (· * ·) D (npHanning D.length)).getD n 0 =
      D.getD n 0 *
        (1 / 2 - 1 / 2 * Real.cos (2 * Real.pi * (n : ℝ) / ((N : ℝ) - 1))) := by
  have hnW : n < (List.zipWith (· * ·) D (npHanning D.length)).length := by
    rw [List.length_zipWith, length_npHanning, min_self, hL]
    exact hn
  have hnD : n < D.length := by rw [hL]; exact hn
  rw [List.getD_eq_getElem _ _ hnW, List.getD_eq_getElem _ _ hnD,
    List.getElem_zipWith]
  congr 1
  simp only [hL, npHanning, if_neg h1, List.getElem_ofFn, Fin.coe_cast, Fin.val_mk]

/-! ## Claims -/

/-- **C1.** For every state of the transfer queue, a producer push
(`put_nowait` wrapped in `except queue.Full: pass`) never blocks: if
the queue holds fewer than its capacity `QCAP = 30` of chunks the new
chunk is appended; if the queue is full the new chunk is dropped and
the queue is unchanged; hence pushing any sequence of at least `QCAP`
chunks onto an empty queue with no draining leaves exactly the `QCAP`
oldest chunks, in push order. -/
theorem C1_queue_never_blocks_drops_newest {α : Type} (q : List α) (c : α)
    (cs : List α) :
    (q.length < QCAP → tryPush QCAP q c = q ++ [c]) ∧
    (QCAP ≤ q.length → tryPush QCAP q c = q) ∧
    (QCAP ≤ cs.length → cs.foldl (tryPush QCAP) [] = cs.take QCAP) := by
  refine ⟨fun h => tryPush_of_lt _ _ _ h,
    fun h => tryPush_of_full _ _ _ (by decide) h, fun _ => ?_⟩
  simpa using foldl_tryPush (α := α) QCAP (by decide) cs [] (by simp)

theorem C1_queue_never_blocks_drops_newest_witness :
    (tryPush QCAP ([] : List ℕ) 7 = [] ++ [7]) ∧
    (tryPush QCAP (List.range 30) 99 = List.range 30) ∧
    ((List.range 31).foldl (tryPush QCAP) [] = (List.range 31).take QCAP) :=
  ⟨(C1_queue_never_blocks_drops_newest [] 7 []).1 (by decide),
   (C1_queue_never_blocks_drops_newest (List.range 30) 99 []).2.1 (by decide),
   (C1_queue_never_blocks_drops_newest ([] : List ℕ) 7 (List.range 31)).2.2
     (by decide)⟩

/-- **C5.** Extending a within-capacity rolling history `h` with a
sample sequence `s` yields exactly the last `min(cap, |h| + |s|)`
samples of `h ++ s` (oldest evicted first), and extending twice with
the same `s` yields the last `cap` samples of `h ++ s ++ s`. -/
theorem C5_rolling_history_extend (cap : ℕ) (h s : List ℚ)
    (hh : h.length ≤ cap) :
    dequeExtend cap h s = lastN cap (h ++ s) ∧
    (dequeExtend cap h s).length = min cap (h.length + s.length) ∧
    dequeExtend cap (dequeExtend cap h s) s = lastN cap (h ++ s ++ s) := by
  have h1 := dequeExtend_eq_lastN cap s h hh
  refine ⟨h1, ?_, ?_⟩
  · rw [h1, length_lastN]
    simp
  · have h2 : (dequeExtend cap h s).length ≤ cap :=
      length_dequeExtend_le cap h s hh
    rw [dequeExtend_eq_lastN cap s _ h2, h1, lastN_lastN_append]

theorem C5_rolling_history_extend_witness :
    dequeExtend 3 [(1 : ℚ), 2] [3, 4, 5] = lastN 3 ([(1 : ℚ), 2] ++ [3, 4, 5]) ∧
    (dequeExtend 3 [(1 : ℚ), 2] [3, 4, 5]).length =
      min 3 (([(1 : ℚ), 2] : List ℚ).length + ([3, 4, 5] : List ℚ).length) ∧
    dequeExtend 3 (dequeExtend 3 [(1 : ℚ), 2] [3, 4, 5]) [3, 4, 5] =
      lastN 3 ([(1 : ℚ), 2] ++ [3, 4, 5] ++ [3, 4, 5]) :=
  C5_rolling_history_extend 3 [1, 2] [3, 4, 5] (by decide)

/-- **C7 counterexample.** Editing `FMIN` up to 100 while `FMAX` is 50
does not preserve the just-edited bound and pull `FMAX` up to 100, as
the claim states: the handler resets the just-edited `FMIN` back down
to 50. -/
theorem C7_clamp_counterexample :
    clampSliders GuiEvent.fmin 100 50 = (50, 50) ∧
    clampSliders GuiEvent.fmin 100 50 ≠ (100, 100) := by
  constructor <;> decide

/-- **C7 amended.** When the just-edited bound makes `min > max`, the
handler restores `min ≤ max` by resetting the *just-edited* bound to
the other bound's value, discarding the edit: editing min above max
pulls min back down to max, and editing max below min pushes max back
up to min; after either slider event `min ≤ max` holds. -/
theorem C7_clamp_resets_edited_bound (ev : GuiEvent) (vmin vmax : ℚ) :
    (ev = GuiEvent.fmin → vmax < vmin →
      clampSliders ev vmin vmax = (vmax, vmax)) ∧
    (ev = GuiEvent.fmax → vmax < vmin →
      clampSliders ev vmin vmax = (vmin, vmin)) ∧
    ((ev = GuiEvent.fmin ∨ ev = GuiEvent.fmax) →
      (clampSliders ev vmin vmax).1 ≤ (clampSliders ev vmin vmax).2) := by
  refine ⟨?_, ?_, ?_⟩
  · rintro rfl hlt
    simp [clampSliders, if_pos hlt]
  · rintro rfl hlt
    simp [clampSliders, if_pos hlt]
  · rintro (rfl | rfl) <;> rcases lt_or_le vmax vmin with hlt | hle
    · simp [clampSliders, if_pos hlt]
    · simp [clampSliders, if_neg (not_lt.mpr hle), hle]
    · simp [clampSliders, if_pos hlt]
    · simp [clampSliders, if_neg (not_lt.mpr hle), hle]

theorem C7_clamp_resets_edited_bound_witness :
    clampSliders GuiEvent.fmin 100 50 = ((50 : ℚ), (50 : ℚ)) ∧
    clampSliders GuiEvent.fmax 100 50 = ((100 : ℚ), (100 : ℚ)) ∧
    (clampSliders GuiEvent.fmax 100 50).1 ≤ (clampSliders GuiEvent.fmax 100 50).2 :=
  ⟨(C7_clamp_resets_edited_bound GuiEvent.fmin 100 50).1 rfl (by decide),
   (C7_clamp_resets_edited_bound GuiEvent.fmax 100 50).2.1 rfl (by decide),
   (C7_clamp_resets_edited_bound GuiEvent.fmax 100 50).2.2 (Or.inr rfl)⟩

/-- **C10.** For the live-capture source, `start()` when a stream is
already open is a no-op (the whole object, including the existing
stream, is unchanged), and `stop()` when no stream is open is a no-op. -/
theorem C10_mic_start_stop_idempotent (s : AudioStream) :
    (∀ h0 : StreamHandle, s.stream = some h0 → s.start = s) ∧
    (s.stream = none → s.stop = s) := by
  constructor
  · intro h0 hs
    simp [AudioStream.start, hs]
  · intro hs
    simp [AudioStream.stop, hs]

theorem C10_mic_start_stop_idempotent_witness :
    (AudioStream.start
        { q := [], fs := 48000, device_idx := 0, stream := some ⟨48000, 2048, 0, 1⟩ } =
      { q := [], fs := 48000, device_idx := 0, stream := some ⟨48000, 2048, 0, 1⟩ }) ∧
    (AudioStream.stop { q := [], fs := 48000, device_idx := 0, stream := none } =
      { q := [], fs := 48000, device_idx := 0, stream := none }) :=
  ⟨(C10_mic_start_stop_idempotent _).1 ⟨48000, 2048, 0, 1⟩ rfl,
   (C10_mic_start_stop_idempotent _).2 rfl⟩

/-- **C2.** For a loaded buffer of length `L ≥ 1`, cursor `ptr < L` and
`BLOCKSIZE > L − ptr`, one `pump()` on a running `LoopingWavStream`
pushes (non-blockingly) the chunk
`data[ptr:L] ++ data[0:(BLOCKSIZE−(L−ptr)) mod L]` and leaves the
cursor at `(ptr + BLOCKSIZE) mod L`. -/
theorem C2_pump_wraparound (s : LoopingWavStream) (d : List ℚ)
    (hrun : s.running = true) (hdata : s.data = some d)
    (_hL : 1 ≤ d.length) (hptr : s.ptr < d.length)
    (hB : d.length - s.ptr < BLOCKSIZE) :
    s.pump.q = tryPush QCAP s.q
      (d.drop s.ptr ++ d.take ((BLOCKSIZE - (d.length - s.ptr)) % d.length)) ∧
    s.pump.ptr = (s.ptr + BLOCKSIZE) % d.length := by
  obtain ⟨fp, q, run, ptr, data, fs⟩ := s
  simp only at hrun hdata hptr hB
  subst hrun hdata
  have hwrap : d.length ≤ ptr + BLOCKSIZE := by omega
  have hmod : (ptr + BLOCKSIZE) % d.length =
      (BLOCKSIZE - (d.length - ptr)) % d.length := by
    rw [Nat.mod_eq_sub_mod hwrap]
    congr 1
    omega
  simp only [LoopingWavStream.pump, if_pos hwrap, hmod]
  constructor <;> trivial

theorem C2_pump_wraparound_witness :
    (LoopingWavStream.pump
        { filepath := "f", q := [], running := true, ptr := 2,
          data := some [(1 : ℚ), 2, 3], fs := 8 }).q =
      tryPush QCAP []
        ([(1 : ℚ), 2, 3].drop 2 ++
          [(1 : ℚ), 2, 3].take ((BLOCKSIZE - (([(1 : ℚ), 2, 3] : List ℚ).length - 2)) %
            ([(1 : ℚ), 2, 3] : List ℚ).length)) ∧
    (LoopingWavStream.pump
        { filepath := "f", q := [], running := true, ptr := 2,
          data := some [(1 : ℚ), 2, 3], fs := 8 }).ptr =
      (2 + BLOCKSIZE) % ([(1 : ℚ), 2, 3] : List ℚ).length :=
  C2_pump_wraparound _ [1, 2, 3] rfl rfl (by decide) (by decide) (by decide)

/-- **C4 counterexample.** A `LoopingWavStream` holding a one-sample
buffer pushes a chunk of length 1 ≠ `BLOCKSIZE` on `pump()`: the claim
that every pushed chunk has length exactly `blockSize` regardless of
the loaded file's length fails. -/
theorem C4_chunk_length_counterexample :
    ∃ c ∈ (LoopingWavStream.pump
        { filepath := "f", q := [], running := true, ptr := 0,
          data := some [(1 : ℚ)/2], fs := 8 }).q,
      c.length ≠ BLOCKSIZE := by
  decide

/-- **C4 amended.** Every chunk either source pushes is mono (a flat
list of single samples) by construction.  A microphone callback chunk
has length equal to the number of delivered frames, hence `BLOCKSIZE`
when the device delivers `BLOCKSIZE` frames; a `pump()` chunk has
length exactly `BLOCKSIZE` whenever `ptr + BLOCKSIZE < 2·L` (so in
particular whenever the loaded buffer has `L ≥ BLOCKSIZE` samples);
shorter loaded files can produce shorter chunks. -/
theorem C4_chunk_length (s : AudioStream) (indata : List (List ℚ))
    (hframes : indata.length = BLOCKSIZE)
    (w : LoopingWavStream) (d : List ℚ) (hrun : w.running = true)
    (hdata : w.data = some d) (hptr : w.ptr < d.length)
    (hwrap : w.ptr + BLOCKSIZE < 2 * d.length) :
    ((s.audio_callback indata).q = tryPush QCAP s.q (npMeanAxis1 indata) ∧
      (npMeanAxis1 indata).length = BLOCKSIZE) ∧
    ∃ c, w.pump.q = tryPush QCAP w.q c ∧ c.length = BLOCKSIZE := by
  refine ⟨⟨rfl, by simp [npMeanAxis1, hframes]⟩, ?_⟩
  obtain ⟨fp, q, run, ptr, data, fs⟩ := w
  simp only at hrun hdata hptr hwrap
  subst hrun hdata
  by_cases hcase : d.length ≤ ptr + BLOCKSIZE
  · refine ⟨d.drop ptr ++ d.take ((ptr + BLOCKSIZE) % d.length), ?_, ?_⟩
    · simp only [LoopingWavStream.pump, if_pos hcase]
    · have hmod : (ptr + BLOCKSIZE) % d.length = ptr + BLOCKSIZE - d.length := by
        rw [Nat.mod_eq_sub_mod hcase, Nat.mod_eq_of_lt (by omega)]
      simp only [List.length_append, List.length_drop, List.length_take, hmod]
      omega
  · refine ⟨(d.drop ptr).take (ptr + BLOCKSIZE - ptr), ?_, ?_⟩
    · simp only [LoopingWavStream.pump, if_neg hcase]
    · simp only [List.length_take, List.length_drop]
      omega

theorem C4_chunk_length_witness :
    ((AudioStream.audio_callback
        { q := [], fs := 48000, device_idx := 0, stream := none }
        (List.replicate 2048 [(1 : ℚ), 2])).q =
      tryPush QCAP [] (npMeanAxis1 (List.replicate 2048 [(1 : ℚ), 2])) ∧
      (npMeanAxis1 (List.replicate 2048 [(1 : ℚ), 2])).length = BLOCKSIZE) ∧
    ∃ c, (LoopingWavStream.pump
        { filepath := "f", q := [], running := true, ptr := 0,
          data := some (List.replicate 4000 (0 : ℚ)), fs := 8 }).q =
      tryPush QCAP [] c ∧ c.length = BLOCKSIZE :=
  C4_chunk_length _ _ (by rw [List.length_replicate]; rfl) _
    (List.replicate 4000 (0 : ℚ)) rfl rfl
    (by rw [List.length_replicate]; decide) (by rw [List.length_replicate]; decide)

/-- **C6 (evaluating the code at the failing input).** Starting a WAV
source whose file read fails leaves the controller *running*: after
`_start` on a read error, `self.running = True` and `self.audio` is a
`LoopingWavStream` with `running = False` and no data — a zombie
source, contradicting the specified "clearly not running, no partial
source" outcome. -/
theorem C6_failed_load_leaves_app_running :
    (appStartWav appInit "wav_files/x.wav" (Except.error "unreadable")).running = true ∧
    ∃ w, (appStartWav appInit "wav_files/x.wav" (Except.error "unreadable")).audio =
        some (ActiveSource.wav w) ∧
      w.running = false ∧ w.data = none := by
  refine ⟨rfl, (LoopingWavStream.init "wav_files/x.wav"), rfl, rfl, rfl⟩

/-- **C9.** After a successful load (`wavfile.read` returns data whose
selected channel is nonempty), the source is running, the divisor
`np.max(np.abs(data)) or 1.0` is nonzero, and every stored sample has
absolute value at most 1. -/
theorem C9_normalization_bounded (s : LoopingWavStream) (fs : ℚ)
    (raw : WavData) (hne : raw.toMono ≠ []) :
    (if maxAbs raw.toMono = 0 then 1 else maxAbs raw.toMono) ≠ 0 ∧
    (s.start (Except.ok (fs, raw))).running = true ∧
    ∃ d, (s.start (Except.ok (fs, raw))).data = some d ∧
      ∀ x ∈ d, |x| ≤ 1 := by
  have hdiv : (if maxAbs raw.toMono = 0 then 1 else maxAbs raw.toMono) ≠ 0 := by
    split
    · exact one_ne_zero
    · assumption
  refine ⟨hdiv, ?_, ?_⟩
  · simp only [LoopingWavStream.start, if_neg hne]
  · refine ⟨raw.toMono.map
        (· / (if maxAbs raw.toMono = 0 then 1 else maxAbs raw.toMono)), ?_, ?_⟩
    · simp only [LoopingWavStream.start, if_neg hne]
    intro x hx
    rw [List.mem_map] at hx
    obtain ⟨y, hy, rfl⟩ := hx
    have hyle : |y| ≤ maxAbs raw.toMono := abs_le_maxAbs _ y hy
    rcases eq_or_ne (maxAbs raw.toMono) 0 with h0 | h0
    · have : y = 0 := abs_eq_zero.mp (le_antisymm (h0 ▸ hyle) (abs_nonneg y))
      simp [this, h0]
    · have hpos : 0 < maxAbs raw.toMono :=
        lt_of_le_of_ne (maxAbs_nonneg _) (Ne.symm h0)
      rw [if_neg h0, abs_div, abs_of_pos hpos]
      exact (div_le_one hpos).mpr hyle

theorem C9_normalization_bounded_witness :
    (if maxAbs (WavData.mono [(3 : ℚ), -4]).toMono = 0 then 1
      else maxAbs (WavData.mono [(3 : ℚ), -4]).toMono) ≠ 0 ∧
    ((LoopingWavStream.init "f").start
        (Except.ok ((8 : ℚ), WavData.mono [(3 : ℚ), -4]))).running = true ∧
    ∃ d, ((LoopingWavStream.init "f").start
        (Except.ok ((8 : ℚ), WavData.mono [(3 : ℚ), -4]))).data = some d ∧
      ∀ x ∈ d, |x| ≤ 1 :=
  C9_normalization_bounded _ 8 (WavData.mono [3, -4]) (by decide)

/-- **C8 counterexample.** With a history of exactly one sample the
single plotted time is `-1/fs`, not `0`: `np.linspace(-1/fs, 0, 1)`
returns its start point. -/
theorem C8_waveform_counterexample :
    plot_wave [(1 : ℚ)/2] 2 = some [(-(1/2), 1/2)] ∧ (-(1/2) : ℚ) ≠ 0 := by
  constructor
  · norm_num [plot_wave, npLinspace, List.ofFn_succ, List.ofFn_zero]
  · norm_num

/-- **C8 amended.** Waveform mode returns no result on an empty
history; with `n ≥ 1` samples at rate `fs` it returns `n`
(time, amplitude) pairs whose amplitudes are the history samples in
order and whose `i`-th time is `−n/fs + i·(n/fs)/(n−1)` — that is,
`np.linspace(−n/fs, 0, n)`: for `n = 1` the single time is `−1/fs`
(not 0), and for `n ≥ 2` the times span `−n/fs … 0` with sample
spacing `n/((n−1)·fs)` (not `1/fs`). -/
theorem C8_waveform_result (history : List ℚ) (fs : ℚ) :
    plot_wave [] fs = none ∧
    (history ≠ [] → ∃ l, plot_wave history fs = some l ∧
      l.length = history.length ∧
      l.map Prod.snd = history ∧
      (∀ i, i < history.length →
        (l.map Prod.fst).getD i 0 =
          -(history.length : ℚ) / fs +
            (i : ℚ) * ((history.length : ℚ) / fs / ((history.length : ℚ) - 1))) ∧
      (2 ≤ history.length → (l.map Prod.fst).getD (history.length - 1) 0 = 0)) := by
  constructor
  · simp [plot_wave]
  intro hne
  refine ⟨(npLinspace (-(history.length : ℚ) / fs) 0 history.length).zip history,
    ?_, ?_, ?_, ?_, ?_⟩
  · simp [plot_wave, hne]
  · rw [List.length_zip, length_npLinspace, min_self]
  · exact List.map_snd_zip _ _ (le_of_eq (length_npLinspace _ _ _).symm)
  · intro i hi
    rw [List.map_fst_zip _ _ (le_of_eq (length_npLinspace _ _ _)),
      npLinspace_getD _ _ _ _ hi]
    ring_nf
  · intro h2
    rw [List.map_fst_zip _ _ (le_of_eq (length_npLinspace _ _ _)),
      npLinspace_getD _ _ _ _ (by omega)]
    have h1 : (1 : ℕ) ≤ history.length := by omega
    have hcast : ((history.length - 1 : ℕ) : ℚ) = (history.length : ℚ) - 1 := by
      rw [Nat.cast_sub h1, Nat.cast_one]
    have hne1 : (history.length : ℚ) - 1 ≠ 0 := by
      have h2q : (2 : ℚ) ≤ (history.length : ℚ) := by exact_mod_cast h2
      linarith
    have h0 : (0 : ℚ) - (-(history.length : ℚ) / fs) = (history.length : ℚ) / fs := by
      ring
    rw [hcast, h0, mul_comm, div_mul_cancel₀ _ hne1]
    ring

theorem C8_waveform_result_witness :
    plot_wave ([] : List ℚ) 1 = none ∧
    (∃ l, plot_wave [(5 : ℚ), 7] 1 = some l ∧
      l.length = ([(5 : ℚ), 7] : List ℚ).length ∧
      l.map Prod.snd = [(5 : ℚ), 7] ∧
      (∀ i, i < ([(5 : ℚ), 7] : List ℚ).length →
        (l.map Prod.fst).getD i 0 =
          -((([(5 : ℚ), 7] : List ℚ).length : ℚ)) / 1 +
            (i : ℚ) * (((([(5 : ℚ), 7] : List ℚ).length : ℚ)) / 1 /
              (((([(5 : ℚ), 7] : List ℚ).length : ℚ)) - 1))) ∧
      (2 ≤ ([(5 : ℚ), 7] : List ℚ).length →
        (l.map Prod.fst).getD (([(5 : ℚ), 7] : List ℚ).length - 1) 0 = 0)) :=
  ⟨(C8_waveform_result [5, 7] 1).1, (C8_waveform_result [5, 7] 1).2 (by decide)⟩

/-- **C3.** FFT mode produces no result when the history holds fewer
than `BLOCKSIZE` samples; otherwise its output is exactly the
specification's description (`fftSpecResult`): the most recent
`BLOCKSIZE` samples, multiplied pointwise by the Hann window
`0.5 − 0.5·cos(2πn/(N−1))`, one-sided DFT, magnitude
`20·log10(|X| + 1e-6)`, restricted to frequencies in
`[fmin, fmax]` with `fmax` replaced by `fmin + 1` whenever
`fmax ≤ fmin`, ordered by strictly ascending frequency.  The bounds are
integers, as delivered by the GUI sliders (resolution 1). -/
theorem C3_fft_matches_spec (history : List ℝ) (fs : ℝ) (hfs : 0 < fs)
    (m M : ℤ) :
    plot_fft history fs (m : ℝ) (M : ℝ) = fftSpecResult history fs (m : ℝ) (M : ℝ) ∧
    (history.length < BLOCKSIZE → plot_fft history fs (m : ℝ) (M : ℝ) = none) ∧
    (∀ l, plot_fft history fs (m : ℝ) (M : ℝ) = some l →
      (l.map Prod.fst).Pairwise (· < ·)) := by
  by_cases hlen : history.length < BLOCKSIZE
  · refine ⟨?_, fun _ => ?_, fun l hl => ?_⟩
    · simp only [plot_fft, fftSpecResult, if_pos hlen]
    · simp only [plot_fft, if_pos hlen]
    · simp only [plot_fft, if_pos hlen] at hl
      cases hl
  · have hmax : max ((M : ℤ) : ℝ) (((m : ℤ) : ℝ) + 1) =
        if ((M : ℤ) : ℝ) ≤ ((m : ℤ) : ℝ) then ((m : ℤ) : ℝ) + 1 else ((M : ℤ) : ℝ) := by
      rcases le_or_lt M m with h | h
      · have hMm : ((M : ℤ) : ℝ) ≤ ((m : ℤ) : ℝ) := by exact_mod_cast h
        rw [if_pos hMm]
        exact max_eq_right (by linarith)
      · have hmM : ((m : ℤ) : ℝ) + 1 ≤ ((M : ℤ) : ℝ) := by
          exact_mod_cast (by omega : m + 1 ≤ M)
        rw [if_neg (not_le.mpr (by exact_mod_cast h))]
        exact max_eq_left hmM
    refine ⟨?_, fun hlt => absurd hlt hlen, fun l hl => ?_⟩
    · simp only [plot_fft, fftSpecResult, if_neg hlen]
      congr 1
      set D := history.drop (history.length - BLOCKSIZE) with hD
      have hdl : D.length = BLOCKSIZE := by
        rw [hD, List.length_drop]
        omega
      set W := List.zipWith (· * ·) D (npHanning D.length) with hW
      have hwl : W.length = BLOCKSIZE := by
        rw [hW, List.length_zipWith, length_npHanning, min_self]
        exact hdl
      have hWget : ∀ n, n < BLOCKSIZE → W.getD n 0 =
          D.getD n 0 *
            (1 / 2 - 1 / 2 * Real.cos (2 * Real.pi * (n : ℝ) / ((BLOCKSIZE : ℝ) - 1))) :=
        fun n hn => getD_windowed D BLOCKSIZE n hdl hn (by decide)
      have hdft : ∀ k : ℕ, dftBin W k =
          ∑ n ∈ Finset.range BLOCKSIZE,
            ((D.getD n 0 *
              (1 / 2 - 1 / 2 * Real.cos (2 * Real.pi * (n : ℝ) / ((BLOCKSIZE : ℝ) - 1)))
              : ℝ) : ℂ) *
              Complex.exp (-(2 * Real.pi * (k : ℝ) * (n : ℝ) / (BLOCKSIZE : ℝ)) * Complex.I) := by
        intro k
        simp only [dftBin, hwl]
        refine Finset.sum_congr rfl fun n hn => ?_
        rw [hWget n (Finset.mem_range.mp hn)]
      have hfreq : ∀ k : ℕ, (k : ℝ) / (1 / fs * (BLOCKSIZE : ℝ)) =
          (k : ℝ) * fs / (BLOCKSIZE : ℝ) := by
        intro k
        rw [one_div_mul_eq_div, div_div_eq_mul_div]
      simp only [npRfft, npRfftfreq, hwl, hdl, List.map_map, List.zip_map',
        filter_map_eq_filterMap]
      refine List.filterMap_congr fun k _ => ?_
      simp only [Function.comp_apply, Bool.and_eq_true, decide_eq_true_eq, hfreq,
        hmax, hdft]
    · simp only [plot_fft, if_neg hlen] at hl
      injection hl with hl
      subst hl
      set D := history.drop (history.length - BLOCKSIZE) with hD
      have hdl : D.length = BLOCKSIZE := by
        rw [hD, List.length_drop]
        omega
      set W := List.zipWith (· * ·) D (npHanning D.length) with hW
      have hwl : W.length = BLOCKSIZE := by
        rw [hW, List.length_zipWith, length_npHanning, min_self]
        exact hdl
      have hxlen : (npRfftfreq D.length (1 / fs)).length ≤
          ((npRfft W).map
            (fun z => 20 * Real.logb 10 (Complex.abs z + 1 / 1000000))).length := by
        simp only [npRfftfreq, npRfft, List.length_map, List.length_range, hdl, hwl]
        exact le_refl _
      have hc : (0 : ℝ) < 1 / fs * ((D.length : ℕ) : ℝ) := by
        rw [hdl]
        have h1 : (0 : ℝ) < 1 / fs := one_div_pos.mpr hfs
        have h2 : (0 : ℝ) < ((BLOCKSIZE : ℕ) : ℝ) := by norm_num [BLOCKSIZE]
        exact mul_pos h1 h2
      have hxf : (npRfftfreq D.length (1 / fs)).Pairwise (· < ·) := by
        simp only [npRfftfreq]
        apply List.pairwise_map.mpr
        refine (List.pairwise_lt_range _).imp fun hab => ?_
        exact (div_lt_div_iff_of_pos_right hc).mpr (by exact_mod_cast hab)
      have hzipfst : (((npRfftfreq D.length (1 / fs)).zip
          ((npRfft W).map
            (fun z => 20 * Real.logb 10 (Complex.abs z + 1 / 1000000)))).map
              Prod.fst).Pairwise (· < ·) := by
        rw [List.map_fst_zip _ _ hxlen]
        exact hxf
      exact List.Pairwise.map Prod.fst (fun a b hab => hab)
        (List.Pairwise.filter _ (List.pairwise_map.mp hzipfst))

theorem C3_fft_matches_spec_witness :
    plot_fft (List.replicate 2048 (0 : ℝ)) 48000 ((10 : ℤ) : ℝ) ((24000 : ℤ) : ℝ) =
      fftSpecResult (List.replicate 2048 (0 : ℝ)) 48000 ((10 : ℤ) : ℝ) ((24000 : ℤ) : ℝ) ∧
    ((List.replicate 2048 (0 : ℝ)).length < BLOCKSIZE →
      plot_fft (List.replicate 2048 (0 : ℝ)) 48000 ((10 : ℤ) : ℝ) ((24000 : ℤ) : ℝ) = none) ∧
    (∀ l, plot_fft (List.replicate 2048 (0 : ℝ)) 48000 ((10 : ℤ) : ℝ) ((24000 : ℤ) : ℝ) =
        some l → (l.map Prod.fst).Pairwise (· < ·)) :=
  C3_fft_matches_spec (List.replicate 2048 0) 48000 (by norm_num) 10 24000

end RTA
